import Mathlib

/-!
Verification of the orchestration layer of the codebrowser generator
(src/generator/main.cpp, src/generator/projectmanager.{h,cpp}).

Strings are modelled through their character lists (`String.data`); the
C++ code manipulates ASCII byte strings, for which character positions and
byte positions coincide.  Machine integers (`unsigned int` match lengths,
`size_t` sizes) are modelled as `Nat`: the values involved are string
lengths, far below any overflow boundary.
-/

namespace CodeBrowser

/-- Character-list length of a string (models `std::string::size` /
`llvm::StringRef::size` on ASCII data). -/
def strLen (s : String) : Nat := s.data.length

/-- `startsWithB pre s` models `llvm::StringRef::startswith`:
`s` starts with `pre`. -/
def startsWithB (pre s : String) : Bool := pre.data.isPrefixOf s.data

/-- `endsWithB suf s` models `llvm::StringRef::endswith`. -/
def endsWithB (suf s : String) : Bool := suf.data.isSuffixOf s.data

/-- Drop the first `n` characters (models `StringRef::substr(n)`, which
clamps at the end of the string). -/
def strDrop (s : String) (n : Nat) : String := String.mk (s.data.drop n)

/-- Take the first `n` characters (models `substr(0, n)`). -/
def strTake (s : String) (n : Nat) : String := String.mk (s.data.take n)

/-- Last character of a string, if any (models `s[s.size()-1]`). -/
def strLast (s : String) : Option Char := s.data.getLast?

/-- First character of a string, if any (models `s[0]` guarded by
`!s.empty()`). -/
def strHead (s : String) : Option Char := s.data.head?

/-- Character at index `n`, if any. -/
def strNth (s : String) (n : Nat) : Option Char := (s.data.drop n).head?

/-- Lexicographic strict comparison of character lists, mirroring
`std::string::operator<` (byte-wise lexicographic order on ASCII data). -/
def listLtB : List Char → List Char → Bool
  | _, [] => false
  | [], _ :: _ => true
  | a :: as, b :: bs =>
    if a.toNat < b.toNat then true
    else if b.toNat < a.toNat then false
    else listLtB as bs

/-- `strLtB a b` models `a < b` on `std::string`. -/
def strLtB (a b : String) : Bool := listLtB a.data b.data

/-- Project classification, from `ProjectInfo::Type` in
src/generator/projectmanager.h. -/
inductive ProjectType
  | Normal
  | Internal
  | External
deriving DecidableEq, Repr

/-- `struct ProjectInfo` from src/generator/projectmanager.h. -/
structure ProjectInfo where
  name : String
  source_path : String
  revision : String
  external_root_url : String
  type : ProjectType
deriving DecidableEq, Repr

/-- Loop body state of `ProjectManager::projectForFile`
(src/generator/projectmanager.cpp, lines 72-88): the running
`match_length` and `result` while scanning the `projects` vector. -/
def projectForFileGo (f : String) :
    List ProjectInfo → Nat → Option ProjectInfo → Nat × Option ProjectInfo
  | [], ml, r => (ml, r)
  | it :: rest, ml, r =>
    if strLen it.source_path < ml then
      projectForFileGo f rest ml r
    else if startsWithB it.source_path f = true then
      projectForFileGo f rest (strLen it.source_path) (some it)
    else
      projectForFileGo f rest ml r

/-- `ProjectManager::projectForFile` (src/generator/projectmanager.cpp,
lines 72-88). -/
def projectForFile (projects : List ProjectInfo) (f : String) : Option ProjectInfo :=
  (projectForFileGo f projects 0 none).2

/-- `ProjectManager::addProject` (src/generator/projectmanager.cpp,
lines 55-70).  The helper `canonicalize` lives in filesystem.h, outside
the three files under verification, so it is an explicit parameter; the
theorems below hold for every choice of it.  Returns the C++ `bool`
together with the updated `projects` vector. -/
def addProject (canonicalize : String → String) (projects : List ProjectInfo)
    (info : ProjectInfo) : Bool × List ProjectInfo :=
  if info.source_path = "" then (false, projects)
  else
    let filename := canonicalize info.source_path
    if filename = "" then (false, projects)
    else
      let filename := if strLast filename = some '/' then filename else filename ++ "/"
      (true, projects ++ [{ info with source_path := filename }])

/-- The destination output path computed inside
`ProjectManager::shouldProcess` (src/generator/projectmanager.cpp,
lines 122-123): `outputPrefix % "/" % project->name % "/" %
filename.substr(project->source_path.size()) % ".html"`. -/
def outputFileName (outputPrefix filename : String) (project : ProjectInfo) : String :=
  outputPrefix ++ "/" ++ project.name ++ "/" ++
    strDrop filename (strLen project.source_path) ++ ".html"

/-- `ProjectManager::shouldProcess` (src/generator/projectmanager.cpp,
lines 109-129) together with `addFile_Locked`
(src/generator/projectmanager.h, lines 151-155).  The mutex-guarded
`exists_files_` set is threaded explicitly as a list of already-claimed
output paths; the lock serializes concurrent calls, so every concurrent
execution is one of the sequential call traces modelled below. -/
def shouldProcess (outputPrefix : String) (st : List String) (filename : String) :
    Option ProjectInfo → Bool × List String
  | none => (false, st)
  | some project =>
    if project.type = ProjectType.External then (false, st)
    else
      let fn := outputFileName outputPrefix filename project
      if fn ∈ st then (false, st) else (true, fn :: st)

/-- The output path a `shouldProcess` call will try to claim, if any:
`none` when the project pointer is null or the project is External. -/
def pathOf (outputPrefix : String) : String × Option ProjectInfo → Option String
  | (_, none) => none
  | (f, some project) =>
    if project.type = ProjectType.External then none
    else some (outputFileName outputPrefix f project)

/-- Final `exists_files_` state after a sequence of `shouldProcess`
calls. -/
def spFold (outputPrefix : String) (st : List String) :
    List (String × Option ProjectInfo) → List String
  | [] => st
  | (f, pr) :: rest => spFold outputPrefix (shouldProcess outputPrefix st f pr).2 rest

/-- Results of a sequence of `shouldProcess` calls, in call order. -/
def runShouldProcess (outputPrefix : String) (st : List String) :
    List (String × Option ProjectInfo) → List Bool
  | [] => []
  | (f, pr) :: rest =>
    (shouldProcess outputPrefix st f pr).1 ::
      runShouldProcess outputPrefix (shouldProcess outputPrefix st f pr).2 rest

/-- Number of `shouldProcess` calls in a trace that claim the output path
`fn`, i.e. return `true` while computing `fn`. -/
def trueClaimCount (outputPrefix fn : String) (st : List String) :
    List (String × Option ProjectInfo) → Nat
  | [] => 0
  | (f, pr) :: rest =>
    (if (shouldProcess outputPrefix st f pr).1 = true ∧
        pathOf outputPrefix (f, pr) = some fn then 1 else 0) +
      trueClaimCount outputPrefix fn (shouldProcess outputPrefix st f pr).2 rest

/-- `DatabaseType` from src/generator/main.cpp, lines 113-117. -/
inductive DatabaseType
  | InDatabase
  | NotInDatabase
  | ProcessFullDirectory
deriving DecidableEq, Repr

/-- `ProcessedSet::try_insert` (src/generator/main.cpp, lines 240-244):
mutex-guarded insertion into the `processed_` set, true iff the element
was absent. -/
def try_insert (st : List String) (s : String) : Bool × List String :=
  if s ∈ st then (false, st) else (true, s :: st)

/-- `BrowserAction::CreateASTConsumer` (src/generator/main.cpp,
lines 265-278): returns the newly created `BrowserASTConsumer`
(represented by the `DatabaseType` it is constructed with) when the
dedup guard admits the input file, and `none` (the C++ `nullptr`) when
the file was already processed. -/
def CreateASTConsumer (st : List String) (inFile : String)
    (wasInDatabase : DatabaseType) : Option DatabaseType × List String :=
  if (try_insert st inFile).1 = true then (some wasInDatabase, (try_insert st inFile).2)
  else (none, (try_insert st inFile).2)

/-- Final `processed_` state after a sequence of `try_insert` calls. -/
def tryInsertFold (st : List String) : List String → List String
  | [] => st
  | s :: rest => tryInsertFold (try_insert st s).2 rest

/-- Results of a sequence of `try_insert` calls, in call order. -/
def runTryInsert (st : List String) : List String → List Bool
  | [] => []
  | s :: rest => (try_insert st s).1 :: runTryInsert (try_insert st s).2 rest

/-- Number of consumer creations for the translation unit `id` in a trace
of `CreateASTConsumer` calls. -/
def consumerCreationCount (id : String) (st : List String) :
    List (String × DatabaseType) → Nat
  | [] => 0
  | (f, tp) :: rest =>
    (if f = id ∧ (CreateASTConsumer st f tp).1.isSome = true then 1 else 0) +
      consumerCreationCount id (CreateASTConsumer st f tp).2 rest

/-- Loop state of the path-absolutization loop in `proceedCommand`
(src/generator/main.cpp, lines 308-342): the three flags plus the tokens
already rewritten. -/
structure WalkState where
  previousIsDashI : Bool
  previousNeedsMacro : Bool
  hasNoStdInc : Bool
  acc : List String
deriving DecidableEq, Repr

/-- One iteration of the `for (std::string &A : command)` loop of
`proceedCommand` (src/generator/main.cpp, lines 311-342).  `fsExists`
models `llvm::sys::fs::exists`. -/
def walkStep (fsExists : String → Bool) (Directory : String)
    (st : WalkState) (A : String) : WalkState :=
  if st.previousIsDashI = true ∧ A ≠ "" ∧ strHead A ≠ some '/' then
    { st with previousIsDashI := false, acc := st.acc ++ [Directory ++ "/" ++ A] }
  else if A = "-I" then
    { st with previousIsDashI := true, acc := st.acc ++ [A] }
  else if A = "-nostdinc" ∨ A = "-nostdinc++" then
    { st with hasNoStdInc := true, acc := st.acc ++ [A] }
  else if A = "-U" ∨ A = "-D" then
    { st with previousNeedsMacro := true, acc := st.acc ++ [A] }
  else if st.previousNeedsMacro = true then
    { st with previousNeedsMacro := false, acc := st.acc ++ [A] }
  else if A = "" then
    { st with previousIsDashI := false, acc := st.acc ++ [A] }
  else if startsWithB "-I" A = true ∧ strNth A 2 ≠ some '/' then
    { st with previousIsDashI := false
              acc := st.acc ++ ["-I" ++ Directory ++ "/" ++ strDrop A 2] }
  else if strHead A = some '-' ∨ strHead A = some '/' then
    { st with previousIsDashI := false, acc := st.acc ++ [A] }
  else
    { st with previousIsDashI := false
              acc := st.acc ++
                [if fsExists (Directory ++ "/" ++ A) = true then Directory ++ "/" ++ A
                 else A] }

/-- The whole absolutization loop: rewritten token list and the final
`hasNoStdInc` flag. -/
def walkTokens (fsExists : String → Bool) (Directory : String)
    (command : List String) : List String × Bool :=
  let final := command.foldl (walkStep fsExists Directory) ⟨false, false, false, []⟩
  (final.acc, final.hasNoStdInc)

/-- The command built by `proceedCommand` (src/generator/main.cpp,
lines 297-368) before it is handed to `clang::tooling::ToolInvocation`:
the absolutization loop, then the two clang argument adjusters (library
code outside this repository, abstracted as the `adjuster` parameter),
then the conditional builtin-headers include and the two
warning-suppression flags. -/
def proceedCommand (adjuster : List String → List String)
    (fsExists : String → Bool) (Directory : String)
    (command : List String) : List String :=
  adjuster (walkTokens fsExists Directory command).1 ++
    (if (walkTokens fsExists Directory command).2 = true then []
     else ["-isystem", "/builtins"]) ++
    ["-Qunused-arguments", "-Wno-unknown-warning-option"]

/-- `std::lower_bound(AllFiles.cbegin(), AllFiles.cend(), file)` on the
sorted `AllFiles` vector (src/generator/main.cpp, line 666): the first
entry that is not lexicographically less than `file`. -/
def lowerBound (l : List String) (x : String) : Option String :=
  l.find? (fun s => !(strLtB s x))

/-- The donor file chosen by the recovery path (src/generator/main.cpp,
lines 666-670): the `lower_bound` entry, or the first entry of the list
when `lower_bound` reaches the end. -/
def recoveryDonor (allFiles : List String) (file : String) : Option String :=
  match lowerBound allFiles file with
  | some d => some d
  | none => allFiles.head?

/-- `std::replace(command.begin(), command.end(), fileForCommands, it)`
(src/generator/main.cpp, line 679): element-wise replacement of tokens
that are equal to `old` by `new_`. -/
def replaceCmd (command : List String) (old new_ : String) : List String :=
  command.map (fun t => if t = old then new_ else t)

/-- Modelled from the spec: "textually substitute every occurrence of the
nearest file's path with the target file's path" — substitution of every
(non-overlapping, leftmost-first) occurrence of `pat` inside a single
string, including occurrences embedded inside longer tokens.  This is the
claim's reading of the substitution, stated for comparison with
`replaceCmd`; it is not code of the repository. -/
def substAllAux (pat rep : List Char) : Nat → List Char → List Char
  | 0, l => l
  | _, [] => []
  | fuel + 1, c :: rest =>
    if pat ≠ [] ∧ pat.isPrefixOf (c :: rest) = true then
      rep ++ substAllAux pat rep fuel ((c :: rest).drop pat.length)
    else
      c :: substAllAux pat rep fuel rest

/-- Modelled from the spec: textual substitution of every occurrence of
`pat` in `s` by `rep` (see `substAllAux`). -/
def substAll (s pat rep : String) : String :=
  String.mk (substAllAux pat.data rep.data s.data.length s.data)

/-- One entry of the compilation database
(`clang::tooling::CompileCommand`), reduced to the fields the orchestrator
reads. -/
structure CompileCommand where
  directory : String
  commandLine : List String
deriving DecidableEq, Repr

/-- Fixed disclaimer text of the fallback page
(src/generator/main.cpp, line 736). -/
def notCppDisclaimer : String :=
  "Warning: This file is not a C or C++ file. It does not have highlighting."

/-- Footer of the fallback page (src/generator/main.cpp, lines 714-717);
`dateStr` is the `strftime`-formatted current date. -/
def fallbackFooter (dateStr : String) (projectinfo : ProjectInfo) : String :=
  let footer := "Generated on <em>" ++ dateStr ++ "</em>" ++ " from project " ++
    projectinfo.name ++ "</a>"
  if projectinfo.revision ≠ "" then
    footer ++ " revision <em>" ++ projectinfo.revision ++ "</em>"
  else footer

/-- The `.qdoc` adjustment (src/generator/main.cpp, lines 681-686):
insert `-xc++` after the driver name and include the header counterpart.
(The C++ `insert(begin()+1, ..)` on an empty command is undefined; the
empty case is modelled as producing the inserted token alone.) -/
def qdocAdjust (file : String) (command : List String) : List String :=
  if endsWithB ".qdoc" file = true then
    (match command with
     | [] => ["-xc++"]
     | c :: rest => c :: "-xc++" :: rest) ++
      ["-include", strTake file (strLen file - 5) ++ ".h"]
  else command

/-- Externally observable actions of the phase-2 (delayed) per-file loop
body. -/
inductive Event
  | scheduleJob (command : List String) (directory file : String) (tp : DatabaseType)
  | couldNotFindCommands (file : String)
  | emitPage (fn footer disclaimer : String)
  | appendOtherIndex (line : String)
deriving DecidableEq, Repr

/-- Command lookup, recovery and scheduling part of the delayed-file loop
body (src/generator/main.cpp, lines 660-698): the events it emits. -/
def delayedScheduled (getCompileCommands : String → List CompileCommand)
    (allFiles : List String) (isProcessingAllDirectory : Bool)
    (it file : String) : List Event :=
  let ccs0 := getCompileCommands file
  let found :=
    if ccs0.isEmpty = true then
      match recoveryDonor allFiles file with
      | some donor => (getCompileCommands donor, donor)
      | none => (ccs0, file)
    else (ccs0, file)
  match found.1 with
  | cc :: _ =>
    let command := replaceCmd cc.commandLine found.2 it
    let command := qdocAdjust file command
    [Event.scheduleJob command cc.directory file
      (if isProcessingAllDirectory = true then DatabaseType.ProcessFullDirectory
       else DatabaseType.NotInDatabase)]
  | [] => [Event.couldNotFindCommands file]

/-- The fallback block of the delayed-file loop body
(src/generator/main.cpp, lines 701-744): re-resolve the project, re-check
`shouldProcess`, and emit the unannotated page plus the `otherIndex`
entry when both succeed. -/
def delayedFallback (outputPrefix dateStr : String) (projects : List ProjectInfo)
    (canReadFile : String → Bool) (canOpenOtherIndex : Bool)
    (file : String) (st1 : List String) (scheduled : List Event) :
    List String × List Event :=
  match projectForFile projects file with
  | none => (st1, scheduled)
  | some projectinfo =>
    match shouldProcess outputPrefix st1 file (some projectinfo) with
    | (false, st2) => (st2, scheduled)
    | (true, st2) =>
      let footer := fallbackFooter dateStr projectinfo
      if canReadFile file = false then (st2, scheduled)
      else
        let fn := projectinfo.name ++ "/" ++
          strDrop file (strLen projectinfo.source_path)
        (st2, scheduled ++ [Event.emitPage fn footer notCppDisclaimer] ++
          (if canOpenOtherIndex = true then [Event.appendOtherIndex fn] else []))

/-- The body of the `for (const auto &it : NotInDB)` loop
(src/generator/main.cpp, lines 638-745), assembled from
`delayedScheduled` and `delayedFallback`.  External collaborators are
parameters: `getCompileCommands` is the compilation database lookup,
`absolutePath` is `clang::tooling::getAbsolutePath`, `canReadFile` is
`llvm::MemoryBuffer::getFile` succeeding, `canOpenOtherIndex` is the
`otherIndex` ofstream opening.  The local `bool success = false` of
line 673 is never assigned afterwards in the source (the job result is
produced asynchronously in the thread pool and discarded), which is kept
as-is here.  Returns the updated `exists_files_` state and the emitted
events. -/
def processDelayedFile (outputPrefix dateStr : String)
    (projects : List ProjectInfo)
    (getCompileCommands : String → List CompileCommand)
    (allFiles : List String)
    (isProcessingAllDirectory : Bool)
    (absolutePath : String → String)
    (canReadFile : String → Bool)
    (canOpenOtherIndex : Bool)
    (st : List String) (it : String) : List String × List Event :=
  let file := absolutePath it
  match projectForFile projects file with
  | none => (st, [])
  | some project =>
    match shouldProcess outputPrefix st file (some project) with
    | (false, st1) => (st1, [])
    | (true, st1) =>
      let scheduled :=
        delayedScheduled getCompileCommands allFiles isProcessingAllDirectory it file
      let success := false
      if success = false ∧ isProcessingAllDirectory = false then
        delayedFallback outputPrefix dateStr projects canReadFile canOpenOtherIndex
          file st1 scheduled
      else (st1, scheduled)

/-! ### Lemmas about `projectForFile` -/

/-- Invariant of the `projectForFile` loop state: a null `result` goes
with `match_length = 0`, and a non-null `result` matches the file with
exactly `match_length` characters. -/
def GoInv (f : String) (ml : Nat) (r : Option ProjectInfo) : Prop :=
  (r = none → ml = 0) ∧
  ∀ p, r = some p → ml = strLen p.source_path ∧ startsWithB p.source_path f = true

theorem projectForFileGo_ml_le (f : String) (l : List ProjectInfo) :
    ∀ (ml : Nat) (r : Option ProjectInfo), ml ≤ (projectForFileGo f l ml r).1 := by
  induction l with
  | nil => intro ml r; exact Nat.le_refl ml
  | cons it rest ih =>
    intro ml r
    by_cases h1 : strLen it.source_path < ml
    · simpa [projectForFileGo, h1] using ih ml r
    · by_cases h2 : startsWithB it.source_path f = true
      · simp only [projectForFileGo, if_neg h1, if_pos h2]
        exact Nat.le_trans (Nat.le_of_not_lt h1) (ih _ _)
      · simpa [projectForFileGo, h1, h2] using ih ml r

theorem projectForFileGo_inv (f : String) (l : List ProjectInfo) :
    ∀ (ml : Nat) (r : Option ProjectInfo), GoInv f ml r →
      GoInv f (projectForFileGo f l ml r).1 (projectForFileGo f l ml r).2 := by
  induction l with
  | nil => intro ml r h; exact h
  | cons it rest ih =>
    intro ml r h
    by_cases h1 : strLen it.source_path < ml
    · simpa [projectForFileGo, h1] using ih ml r h
    · by_cases h2 : startsWithB it.source_path f = true
      · simp only [projectForFileGo, if_neg h1, if_pos h2]
        refine ih _ _ ⟨(fun hcon => by cases hcon), ?_⟩
        intro p hp
        cases hp
        exact ⟨rfl, h2⟩
      · simpa [projectForFileGo, h1, h2] using ih ml r h

theorem projectForFileGo_mem (f : String) (l : List ProjectInfo) :
    ∀ (ml : Nat) (r : Option ProjectInfo) (p' : ProjectInfo),
      (projectForFileGo f l ml r).2 = some p' → p' ∈ l ∨ r = some p' := by
  induction l with
  | nil => intro ml r p' h; exact Or.inr h
  | cons it rest ih =>
    intro ml r p' h
    by_cases h1 : strLen it.source_path < ml
    · simp only [projectForFileGo, if_pos h1] at h
      rcases ih ml r p' h with hm | hr
      · exact Or.inl (List.mem_cons_of_mem it hm)
      · exact Or.inr hr
    · by_cases h2 : startsWithB it.source_path f = true
      · simp only [projectForFileGo, if_neg h1, if_pos h2] at h
        rcases ih _ _ p' h with hm | hr
        · exact Or.inl (List.mem_cons_of_mem it hm)
        · cases hr
          exact Or.inl (List.mem_cons_self it rest)
      · simp only [projectForFileGo, if_neg h1, if_neg h2] at h
        rcases ih ml r p' h with hm | hr
        · exact Or.inl (List.mem_cons_of_mem it hm)
        · exact Or.inr hr

theorem projectForFileGo_isSome (f : String) (l : List ProjectInfo) :
    ∀ (ml : Nat) (p : ProjectInfo),
      ((projectForFileGo f l ml (some p)).2).isSome = true := by
  induction l with
  | nil => intro ml p; rfl
  | cons it rest ih =>
    intro ml p
    by_cases h1 : strLen it.source_path < ml
    · simpa [projectForFileGo, h1] using ih ml p
    · by_cases h2 : startsWithB it.source_path f = true
      · simp only [projectForFileGo, if_neg h1, if_pos h2]
        exact ih _ _
      · simpa [projectForFileGo, h1, h2] using ih ml p

theorem projectForFileGo_bound (f : String) (l : List ProjectInfo) :
    ∀ (ml : Nat) (r : Option ProjectInfo) (q : ProjectInfo), q ∈ l →
      startsWithB q.source_path f = true →
      strLen q.source_path ≤ (projectForFileGo f l ml r).1 := by
  induction l with
  | nil => intro ml r q hq; cases hq
  | cons it rest ih =>
    intro ml r q hq hqpre
    by_cases h1 : strLen it.source_path < ml
    · simp only [projectForFileGo, if_pos h1]
      rcases List.mem_cons.mp hq with rfl | hm
      · exact Nat.le_trans (Nat.le_of_lt h1) (projectForFileGo_ml_le f rest ml r)
      · exact ih ml r q hm hqpre
    · by_cases h2 : startsWithB it.source_path f = true
      · simp only [projectForFileGo, if_neg h1, if_pos h2]
        rcases List.mem_cons.mp hq with rfl | hm
        · exact projectForFileGo_ml_le f rest _ _
        · exact ih _ _ q hm hqpre
      · simp only [projectForFileGo, if_neg h1, if_neg h2]
        rcases List.mem_cons.mp hq with rfl | hm
        · exact absurd hqpre h2
        · exact ih ml r q hm hqpre

theorem projectForFileGo_none_iff (f : String) (l : List ProjectInfo) :
    ∀ (ml : Nat) (r : Option ProjectInfo), GoInv f ml r →
      ((projectForFileGo f l ml r).2 = none ↔
        (r = none ∧ ∀ q ∈ l, ¬ startsWithB q.source_path f = true)) := by
  induction l with
  | nil =>
    intro ml r _
    simp [projectForFileGo]
  | cons it rest ih =>
    intro ml r hinv
    by_cases h1 : strLen it.source_path < ml
    · rcases r with _ | p
      · exact absurd (hinv.1 rfl ▸ h1) (Nat.not_lt_zero _)
      · simp only [projectForFileGo, if_pos h1]
        constructor
        · intro h
          have := projectForFileGo_isSome f rest ml p
          rw [h] at this
          cases this
        · rintro ⟨hcon, -⟩
          cases hcon
    · by_cases h2 : startsWithB it.source_path f = true
      · simp only [projectForFileGo, if_neg h1, if_pos h2]
        constructor
        · intro h
          have := projectForFileGo_isSome f rest (strLen it.source_path) it
          rw [h] at this
          cases this
        · rintro ⟨-, hall⟩
          exact absurd h2 (hall it (List.mem_cons_self it rest))
      · simp only [projectForFileGo, if_neg h1, if_neg h2]
        rw [ih ml r hinv]
        constructor
        · rintro ⟨hr, hall⟩
          refine ⟨hr, ?_⟩
          intro q hq
          rcases List.mem_cons.mp hq with rfl | hm
          · exact h2
          · exact hall q hm
        · rintro ⟨hr, hall⟩
          exact ⟨hr, fun q hq => hall q (List.mem_cons_of_mem it hq)⟩

theorem projectForFileGo_append (f : String) (l1 : List ProjectInfo) :
    ∀ (l2 : List ProjectInfo) (ml : Nat) (r : Option ProjectInfo),
      projectForFileGo f (l1 ++ l2) ml r =
        projectForFileGo f l2 (projectForFileGo f l1 ml r).1
          (projectForFileGo f l1 ml r).2 := by
  induction l1 with
  | nil => intro l2 ml r; rfl
  | cons it rest ih =>
    intro l2 ml r
    by_cases h1 : strLen it.source_path < ml
    · simpa [projectForFileGo, h1] using ih l2 ml r
    · by_cases h2 : startsWithB it.source_path f = true
      · simp only [List.cons_append, projectForFileGo, if_neg h1, if_pos h2]
        exact ih l2 _ _
      · simpa [projectForFileGo, h1, h2] using ih l2 ml r

theorem goInv_init (f : String) : GoInv f 0 none :=
  ⟨fun _ => rfl, fun p h => by cases h⟩

theorem projectForFile_some_len (projects : List ProjectInfo) (f : String)
    (p : ProjectInfo) (h : projectForFile projects f = some p) :
    (projectForFileGo f projects 0 none).1 = strLen p.source_path ∧
      startsWithB p.source_path f = true := by
  have hinv := projectForFileGo_inv f projects 0 none (goInv_init f)
  exact hinv.2 p h

/-! ### Claims C1 and C10: longest-prefix resolution -/

/-- Claim C1: `projectForFile` returns a registered project whose
`source_path` is a prefix of the file name of greatest length among all
matching prefixes, returns `none` exactly when no registered
`source_path` is a prefix, and appending a further project with a
strictly shorter `source_path` never changes a result obtained through a
longer matching prefix. -/
theorem claim_C1_projectForFile_longest (projects : List ProjectInfo) (f : String) :
    (projectForFile projects f = none ↔
      ∀ q ∈ projects, ¬ startsWithB q.source_path f = true) ∧
    (∀ p, projectForFile projects f = some p →
      p ∈ projects ∧ startsWithB p.source_path f = true ∧
        ∀ q ∈ projects, startsWithB q.source_path f = true →
          strLen q.source_path ≤ strLen p.source_path) ∧
    (∀ p q, projectForFile projects f = some p →
      strLen q.source_path < strLen p.source_path →
      projectForFile (projects ++ [q]) f = some p) := by
  refine ⟨?_, ?_, ?_⟩
  · have h := projectForFileGo_none_iff f projects 0 none (goInv_init f)
    unfold projectForFile
    rw [h]
    simp
  · intro p hp
    have hmem := projectForFileGo_mem f projects 0 none p hp
    have hlen := projectForFile_some_len projects f p hp
    refine ⟨?_, hlen.2, ?_⟩
    · rcases hmem with hm | hr
      · exact hm
      · cases hr
    · intro q hq hqpre
      have := projectForFileGo_bound f projects 0 none q hq hqpre
      rwa [hlen.1] at this
  · intro p q hp hlt
    have hlen := projectForFile_some_len projects f p hp
    unfold projectForFile at hp ⊢
    rw [projectForFileGo_append f projects [q] 0 none, hp, hlen.1]
    simp [projectForFileGo, Nat.lt_irrefl, hlt]

/-- Demonstration registry used by the witnesses: the two spec scenario
projects. -/
def demoBase : ProjectInfo := ⟨"base", "/src/", "", "", ProjectType.Normal⟩

/-- Demonstration project with the longer prefix. -/
def demoApp : ProjectInfo := ⟨"app", "/src/app/", "", "", ProjectType.Normal⟩

/-- Demonstration project whose prefix is shorter than `demoApp`'s. -/
def demoShort : ProjectInfo := ⟨"short", "/s/", "", "", ProjectType.Normal⟩

/-- Demonstration registry. -/
def demoProjects : List ProjectInfo := [demoBase, demoApp]

/-- Witness for C1 at a concrete input: `/src/app/main.cc` resolves to
the longer-prefix project `app`, and appending a shorter-prefix project
does not change that. -/
theorem claim_C1_witness :
    demoApp ∈ demoProjects ∧ startsWithB demoApp.source_path "/src/app/main.cc" = true ∧
      projectForFile (demoProjects ++ [demoShort]) "/src/app/main.cc" = some demoApp := by
  have h := claim_C1_projectForFile_longest demoProjects "/src/app/main.cc"
  have h2 := h.2.1 demoApp (by decide)
  have h3 := h.2.2 demoApp demoShort (by decide) (by decide)
  exact ⟨h2.1, h2.2.1, h3⟩

/-- Claim C10: when a later-registered project's `source_path` is a
prefix of the file of the same length as the current winner's, the
later registration wins. -/
theorem claim_C10_later_registration_wins (projects : List ProjectInfo) (f : String)
    (p q : ProjectInfo) (h : projectForFile projects f = some p)
    (hpre : startsWithB q.source_path f = true)
    (hlen : strLen q.source_path = strLen p.source_path) :
    projectForFile (projects ++ [q]) f = some q := by
  have hl := projectForFile_some_len projects f p h
  unfold projectForFile at h ⊢
  rw [projectForFileGo_append f projects [q] 0 none, h, hl.1]
  simp [projectForFileGo, hlen, Nat.lt_irrefl, hpre]

/-- Witness for C10 at a concrete input: a second project with an
equal-length matching prefix overrides the first. -/
theorem claim_C10_witness :
    projectForFile ([demoBase] ++ [⟨"base2", "/src/", "", "", ProjectType.Normal⟩])
      "/src/lib.cc" = some ⟨"base2", "/src/", "", "", ProjectType.Normal⟩ :=
  claim_C10_later_registration_wins [demoBase] "/src/lib.cc" demoBase
    ⟨"base2", "/src/", "", "", ProjectType.Normal⟩ (by decide) (by decide) (by decide)

/-! ### Claim C2: the Existence Guard Set claims each output path once -/

theorem shouldProcess_eq_pathOf (op : String) (st : List String) (f : String)
    (pr : Option ProjectInfo) :
    shouldProcess op st f pr =
      match pathOf op (f, pr) with
      | none => (false, st)
      | some fn => if fn ∈ st then (false, st) else (true, fn :: st) := by
  rcases pr with _ | project
  · rfl
  · by_cases h : project.type = ProjectType.External
    · simp [shouldProcess, pathOf, h]
    · simp [shouldProcess, pathOf, h]

theorem shouldProcess_mem_mono (op : String) (st : List String) (f : String)
    (pr : Option ProjectInfo) (x : String) (hx : x ∈ st) :
    x ∈ (shouldProcess op st f pr).2 := by
  rw [shouldProcess_eq_pathOf]
  rcases hp : pathOf op (f, pr) with _ | fn
  · exact hx
  · by_cases hmem : fn ∈ st
    · simpa [hmem] using hx
    · simp only [if_neg hmem]
      exact List.mem_cons_of_mem fn hx

theorem trueClaimCount_of_mem (op fn : String)
    (tr : List (String × Option ProjectInfo)) :
    ∀ st, fn ∈ st → trueClaimCount op fn st tr = 0 := by
  induction tr with
  | nil => intro st _; rfl
  | cons hd rest ih =>
    rcases hd with ⟨f, pr⟩
    intro st hmem
    have hrec := ih (shouldProcess op st f pr).2 (shouldProcess_mem_mono op st f pr fn hmem)
    by_cases hp : pathOf op (f, pr) = some fn
    · have hfalse : (shouldProcess op st f pr).1 = false := by
        rw [shouldProcess_eq_pathOf, hp]
        simp [hmem]
      simp [trueClaimCount, hfalse, hrec]
    · simp [trueClaimCount, hp, hrec]

theorem trueClaimCount_of_not_mem (op fn : String)
    (tr : List (String × Option ProjectInfo)) :
    ∀ st, fn ∉ st →
      trueClaimCount op fn st tr =
        if tr.any (fun r => decide (pathOf op r = some fn)) = true then 1 else 0 := by
  induction tr with
  | nil => intro st _; rfl
  | cons hd rest ih =>
    rcases hd with ⟨f, pr⟩
    intro st hnm
    by_cases hp : pathOf op (f, pr) = some fn
    · have hsp : shouldProcess op st f pr = (true, fn :: st) := by
        rw [shouldProcess_eq_pathOf, hp]
        simp [hnm]
      have hrest : trueClaimCount op fn (fn :: st) rest = 0 :=
        trueClaimCount_of_mem op fn rest (fn :: st) (List.mem_cons_self fn st)
      have hdec : decide (pathOf op (f, pr) = some fn) = true := decide_eq_true hp
      simp [trueClaimCount, hsp, hp, hrest, List.any_cons, hdec]
    · have hnm' : fn ∉ (shouldProcess op st f pr).2 := by
        rw [shouldProcess_eq_pathOf]
        rcases hq : pathOf op (f, pr) with _ | fn'
        · exact hnm
        · have hne : fn' ≠ fn := fun h => hp (h ▸ hq)
          by_cases hmem : fn' ∈ st
          · simpa [hmem] using hnm
          · simp only [if_neg hmem]
            intro hcon
            rcases List.mem_cons.mp hcon with h | h
            · exact hne h.symm
            · exact hnm h
      have hrec := ih (shouldProcess op st f pr).2 hnm'
      have hdec : decide (pathOf op (f, pr) = some fn) = false := decide_eq_false hp
      have hany : (decide (pathOf op (f, pr) = some fn) ||
          rest.any fun r => decide (pathOf op r = some fn)) =
          rest.any fun r => decide (pathOf op r = some fn) := by
        rw [hdec, Bool.false_or]
      simp only [trueClaimCount, List.any_cons, hany, hrec]
      simp [hp]

theorem spFold_mem_mono (op : String) (tr : List (String × Option ProjectInfo)) :
    ∀ st x, x ∈ st → x ∈ spFold op st tr := by
  induction tr with
  | nil => intro st x hx; exact hx
  | cons hd rest ih =>
    rcases hd with ⟨f, pr⟩
    intro st x hx
    exact ih _ x (shouldProcess_mem_mono op st f pr x hx)

theorem spFold_not_mem (op fn : String) (tr : List (String × Option ProjectInfo)) :
    ∀ st, fn ∉ st → (∀ r ∈ tr, pathOf op r ≠ some fn) → fn ∉ spFold op st tr := by
  induction tr with
  | nil => intro st h _; exact h
  | cons hd rest ih =>
    rcases hd with ⟨f, pr⟩
    intro st hnm hall
    refine ih _ ?_ (fun r hr => hall r (List.mem_cons_of_mem _ hr))
    rw [shouldProcess_eq_pathOf]
    rcases hq : pathOf op (f, pr) with _ | fn'
    · exact hnm
    · have hne : fn' ≠ fn := fun h => hall (f, pr) (List.mem_cons_self _ _) (h ▸ hq)
      by_cases hmem : fn' ∈ st
      · simpa [hmem] using hnm
      · simp only [if_neg hmem]
        intro hcon
        rcases List.mem_cons.mp hcon with h | h
        · exact hne h.symm
        · exact hnm h

theorem spFold_mem_of_computes (op fn : String)
    (tr : List (String × Option ProjectInfo)) :
    ∀ st r, r ∈ tr → pathOf op r = some fn → fn ∈ spFold op st tr := by
  induction tr with
  | nil => intro st r hr; cases hr
  | cons hd rest ih =>
    rcases hd with ⟨f, pr⟩
    intro st r hr hp
    rcases List.mem_cons.mp hr with rfl | hm
    · refine spFold_mem_mono op rest _ fn ?_
      rw [shouldProcess_eq_pathOf, hp]
      by_cases hmem : fn ∈ st
      · simp [hmem]
      · simp only [if_neg hmem]
        exact List.mem_cons_self fn st
    · exact ih _ r hm hp

theorem runShouldProcess_append (op : String) (l1 : List (String × Option ProjectInfo)) :
    ∀ (l2 : List (String × Option ProjectInfo)) (st : List String),
      runShouldProcess op st (l1 ++ l2) =
        runShouldProcess op st l1 ++ runShouldProcess op (spFold op st l1) l2 := by
  induction l1 with
  | nil => intro l2 st; rfl
  | cons hd rest ih =>
    rcases hd with ⟨f, pr⟩
    intro l2 st
    simp only [List.cons_append, runShouldProcess, spFold]
    exact congrArg _ (ih l2 (shouldProcess op st f pr).2)

theorem runShouldProcess_length (op : String) (l : List (String × Option ProjectInfo)) :
    ∀ st, (runShouldProcess op st l).length = l.length := by
  induction l with
  | nil => intro st; rfl
  | cons hd rest ih =>
    rcases hd with ⟨f, pr⟩
    intro st
    simp [runShouldProcess, ih]

/-- Claim C2: in any serialized trace of `shouldProcess` calls starting
from the program's empty `exists_files_` set, the calls computing a given
output path `fn` return `true` exactly once when at least one such call
occurs (and never otherwise); positionally, the first call computing `fn`
returns `true` and every later call computing `fn` returns `false`. -/
theorem claim_C2_output_claimed_once (op fn : String)
    (trace pre post : List (String × Option ProjectInfo))
    (f0 : String) (pr0 : Option ProjectInfo) :
    (trueClaimCount op fn [] trace =
      if trace.any (fun r => decide (pathOf op r = some fn)) = true then 1 else 0) ∧
    (pathOf op (f0, pr0) = some fn → (∀ r ∈ pre, pathOf op r ≠ some fn) →
      (runShouldProcess op [] (pre ++ (f0, pr0) :: post))[pre.length]? = some true) ∧
    (pathOf op (f0, pr0) = some fn → (∃ r ∈ pre, pathOf op r = some fn) →
      (runShouldProcess op [] (pre ++ (f0, pr0) :: post))[pre.length]? = some false) := by
  refine ⟨trueClaimCount_of_not_mem op fn trace [] (by simp), ?_, ?_⟩
  · intro hp hall
    rw [runShouldProcess_append op pre ((f0, pr0) :: post) [],
      List.getElem?_append_right (by rw [runShouldProcess_length]),
      runShouldProcess_length, Nat.sub_self]
    have hnm : fn ∉ spFold op [] pre := spFold_not_mem op fn pre [] (by simp) hall
    have hsp : (shouldProcess op (spFold op [] pre) f0 pr0).1 = true := by
      rw [shouldProcess_eq_pathOf, hp]
      simp [hnm]
    simp [runShouldProcess, hsp]
  · rintro hp ⟨r, hr, hrp⟩
    rw [runShouldProcess_append op pre ((f0, pr0) :: post) [],
      List.getElem?_append_right (by rw [runShouldProcess_length]),
      runShouldProcess_length, Nat.sub_self]
    have hmem : fn ∈ spFold op [] pre := spFold_mem_of_computes op fn pre [] r hr hrp
    have hsp : (shouldProcess op (spFold op [] pre) f0 pr0).1 = false := by
      rw [shouldProcess_eq_pathOf, hp]
      simp [hmem]
    simp [runShouldProcess, hsp]

/-- Demonstration project for the C2 witness. -/
def demoApp2 : ProjectInfo := ⟨"app", "/src/", "", "", ProjectType.Normal⟩

/-- Witness for C2 at a concrete trace: two calls computing the same
output path; the count is one, the first call answers `true`, the second
`false`. -/
theorem claim_C2_witness :
    trueClaimCount "/o" "/o/app/a.cc.html" []
        [("/src/a.cc", some demoApp2), ("/src/a.cc", some demoApp2)] = 1 ∧
    (runShouldProcess "/o" [] ([] ++ ("/src/a.cc", some demoApp2) ::
        [("/src/a.cc", some demoApp2)]))[(0 : Nat)]? = some true ∧
    (runShouldProcess "/o" [] ([("/src/a.cc", some demoApp2)] ++
        ("/src/a.cc", some demoApp2) :: []))[(1 : Nat)]? = some false := by
  have h := claim_C2_output_claimed_once "/o" "/o/app/a.cc.html"
    [("/src/a.cc", some demoApp2), ("/src/a.cc", some demoApp2)]
    [] [("/src/a.cc", some demoApp2)] "/src/a.cc" (some demoApp2)
  have h2 := claim_C2_output_claimed_once "/o" "/o/app/a.cc.html"
    [] [("/src/a.cc", some demoApp2)] [] "/src/a.cc" (some demoApp2)
  refine ⟨by simpa using h.1, ?_, ?_⟩
  · have := h.2.1 (by decide) (by simp)
    simpa using this
  · have := h2.2.2 (by decide) ⟨("/src/a.cc", some demoApp2), by simp, by decide⟩
    simpa using this

/-! ### Claim C3: the Dedup Guard admits each identity once -/

theorem try_insert_mem_mono (st : List String) (s x : String) (hx : x ∈ st) :
    x ∈ (try_insert st s).2 := by
  unfold try_insert
  by_cases h : s ∈ st
  · simpa [h] using hx
  · simp only [if_neg h]
    exact List.mem_cons_of_mem s hx

theorem CreateASTConsumer_state (st : List String) (f : String) (tp : DatabaseType) :
    (CreateASTConsumer st f tp).2 = (try_insert st f).2 := by
  unfold CreateASTConsumer
  split <;> rfl

theorem CreateASTConsumer_isSome (st : List String) (f : String) (tp : DatabaseType) :
    (CreateASTConsumer st f tp).1.isSome = (try_insert st f).1 := by
  unfold CreateASTConsumer
  by_cases h : (try_insert st f).1 = true
  · simp [h]
  · simp [h, Bool.eq_false_iff.mpr h]

theorem tryInsertFold_mem_mono (tr : List String) :
    ∀ st x, x ∈ st → x ∈ tryInsertFold st tr := by
  induction tr with
  | nil => intro st x hx; exact hx
  | cons s rest ih =>
    intro st x hx
    exact ih _ x (try_insert_mem_mono st s x hx)

theorem tryInsertFold_not_mem (id : String) (tr : List String) :
    ∀ st, id ∉ st → id ∉ tr → id ∉ tryInsertFold st tr := by
  induction tr with
  | nil => intro st h _; exact h
  | cons s rest ih =>
    intro st hst htr
    have hs : id ≠ s := fun h => htr (h ▸ List.mem_cons_self s rest)
    refine ih _ ?_ (fun h => htr (List.mem_cons_of_mem s h))
    unfold try_insert
    by_cases h : s ∈ st
    · simpa [h] using hst
    · simp only [if_neg h]
      intro hcon
      rcases List.mem_cons.mp hcon with h' | h'
      · exact hs h'
      · exact hst h'

theorem tryInsertFold_mem_of_mem (id : String) (tr : List String) :
    ∀ st, id ∈ tr → id ∈ tryInsertFold st tr := by
  induction tr with
  | nil => intro st h; cases h
  | cons s rest ih =>
    intro st h
    rcases List.mem_cons.mp h with rfl | hm
    · refine tryInsertFold_mem_mono rest _ id ?_
      unfold try_insert
      by_cases hmem : id ∈ st
      · simp [hmem]
      · simp only [if_neg hmem]
        exact List.mem_cons_self id st
    · exact ih _ hm

theorem runTryInsert_append (l1 : List String) :
    ∀ (l2 : List String) (st : List String),
      runTryInsert st (l1 ++ l2) =
        runTryInsert st l1 ++ runTryInsert (tryInsertFold st l1) l2 := by
  induction l1 with
  | nil => intro l2 st; rfl
  | cons s rest ih =>
    intro l2 st
    simp only [List.cons_append, runTryInsert, tryInsertFold]
    exact congrArg _ (ih l2 (try_insert st s).2)

theorem runTryInsert_length (l : List String) :
    ∀ st, (runTryInsert st l).length = l.length := by
  induction l with
  | nil => intro st; rfl
  | cons s rest ih =>
    intro st
    simp [runTryInsert, ih]

theorem consumerCreationCount_of_mem (id : String) (tr : List (String × DatabaseType)) :
    ∀ st, id ∈ st → consumerCreationCount id st tr = 0 := by
  induction tr with
  | nil => intro st _; rfl
  | cons hd rest ih =>
    rcases hd with ⟨f, tp⟩
    intro st hmem
    have hrec : consumerCreationCount id (CreateASTConsumer st f tp).2 rest = 0 := by
      rw [CreateASTConsumer_state]
      exact ih _ (try_insert_mem_mono st f id hmem)
    by_cases hf : f = id
    · have hfalse : (CreateASTConsumer st f tp).1.isSome = false := by
        rw [CreateASTConsumer_isSome]
        unfold try_insert
        simp [hf, hmem]
      simp [consumerCreationCount, hfalse, hrec]
    · simp [consumerCreationCount, hf, hrec]

theorem consumerCreationCount_of_not_mem (id : String)
    (tr : List (String × DatabaseType)) :
    ∀ st, id ∉ st →
      consumerCreationCount id st tr =
        if tr.any (fun r => decide (r.1 = id)) = true then 1 else 0 := by
  induction tr with
  | nil => intro st _; rfl
  | cons hd rest ih =>
    rcases hd with ⟨f, tp⟩
    intro st hnm
    by_cases hf : f = id
    · subst hf
      have hti : try_insert st f = (true, f :: st) := by
        unfold try_insert
        simp [hnm]
      have hsome : (CreateASTConsumer st f tp).1.isSome = true := by
        rw [CreateASTConsumer_isSome, hti]
      have hrest : consumerCreationCount f (CreateASTConsumer st f tp).2 rest = 0 := by
        rw [CreateASTConsumer_state, hti]
        exact consumerCreationCount_of_mem f rest (f :: st) (List.mem_cons_self f st)
      simp [consumerCreationCount, hsome, hrest, List.any_cons]
    · have hnm' : id ∉ (CreateASTConsumer st f tp).2 := by
        rw [CreateASTConsumer_state]
        unfold try_insert
        by_cases hmem : f ∈ st
        · simpa [hmem] using hnm
        · simp only [if_neg hmem]
          intro hcon
          rcases List.mem_cons.mp hcon with h | h
          · exact hf h.symm
          · exact hnm h
      have hrec := ih _ hnm'
      have hdec : decide ((f, tp).1 = id) = false := decide_eq_false hf
      have hany : (decide ((f, tp).1 = id) || rest.any fun r => decide (r.1 = id)) =
          rest.any fun r => decide (r.1 = id) := by
        rw [hdec, Bool.false_or]
      simp only [consumerCreationCount, List.any_cons, hany, hrec]
      simp [hf]

/-- Claim C3: starting from the program's empty `processed_` set, the
first `try_insert` call with a given identity returns `true`, every later
call with the same identity returns `false`, and in any trace of
`CreateASTConsumer` calls the `BrowserASTConsumer` for a given input file
is created exactly once when that file is submitted at all (in
particular at most once when it is submitted twice). -/
theorem claim_C3_dedup_guard (id : String) (pre post : List String)
    (trace : List (String × DatabaseType)) :
    (id ∉ pre → (runTryInsert [] (pre ++ id :: post))[pre.length]? = some true) ∧
    (id ∈ pre → (runTryInsert [] (pre ++ id :: post))[pre.length]? = some false) ∧
    (consumerCreationCount id [] trace =
      if trace.any (fun r => decide (r.1 = id)) = true then 1 else 0) := by
  refine ⟨?_, ?_, consumerCreationCount_of_not_mem id trace [] (by simp)⟩
  · intro hnp
    rw [runTryInsert_append pre (id :: post) [],
      List.getElem?_append_right (by rw [runTryInsert_length]),
      runTryInsert_length, Nat.sub_self]
    have hnm : id ∉ tryInsertFold [] pre := tryInsertFold_not_mem id pre [] (by simp) hnp
    have hti : (try_insert (tryInsertFold [] pre) id).1 = true := by
      unfold try_insert
      simp [hnm]
    simp [runTryInsert, hti]
  · intro hp
    rw [runTryInsert_append pre (id :: post) [],
      List.getElem?_append_right (by rw [runTryInsert_length]),
      runTryInsert_length, Nat.sub_self]
    have hmem : id ∈ tryInsertFold [] pre := tryInsertFold_mem_of_mem id pre [] hp
    have hti : (try_insert (tryInsertFold [] pre) id).1 = false := by
      unfold try_insert
      simp [hmem]
    simp [runTryInsert, hti]

/-- Witness for C3 at a concrete trace: the same file submitted twice is
admitted once, and its consumer is created exactly once. -/
theorem claim_C3_witness :
    (runTryInsert [] ([] ++ "/src/a.cc" :: ["/src/a.cc"]))[(0 : Nat)]? = some true ∧
    (runTryInsert [] (["/src/a.cc"] ++ "/src/a.cc" :: []))[(1 : Nat)]? = some false ∧
    consumerCreationCount "/src/a.cc" []
      [("/src/a.cc", DatabaseType.InDatabase),
       ("/src/a.cc", DatabaseType.NotInDatabase)] = 1 := by
  have h1 := claim_C3_dedup_guard "/src/a.cc" [] ["/src/a.cc"]
    [("/src/a.cc", DatabaseType.InDatabase), ("/src/a.cc", DatabaseType.NotInDatabase)]
  have h2 := claim_C3_dedup_guard "/src/a.cc" ["/src/a.cc"] []
    [("/src/a.cc", DatabaseType.InDatabase), ("/src/a.cc", DatabaseType.NotInDatabase)]
  refine ⟨by simpa using h1.1 (by simp), by simpa using h2.2.1 (by simp), ?_⟩
  simpa using h1.2.2

/-! ### Claim C4: donor selection in the recovery path -/

theorem lowerBound_append_first (x d : String) (l1 : List String) :
    ∀ l2, (∀ e ∈ l1, strLtB e x = true) → strLtB d x = false →
      lowerBound (l1 ++ d :: l2) x = some d := by
  induction l1 with
  | nil =>
    intro l2 _ hd
    simp [lowerBound, List.find?, hd]
  | cons e rest ih =>
    intro l2 hall hd
    have he : strLtB e x = true := hall e (List.mem_cons_self e rest)
    have := ih l2 (fun e' he' => hall e' (List.mem_cons_of_mem e he')) hd
    simpa [lowerBound, List.find?, he] using this

theorem lowerBound_none (x : String) (l : List String) :
    (∀ e ∈ l, strLtB e x = true) → lowerBound l x = none := by
  induction l with
  | nil => intro _; rfl
  | cons e rest ih =>
    intro hall
    have he : strLtB e x = true := hall e (List.mem_cons_self e rest)
    have := ih (fun e' he' => hall e' (List.mem_cons_of_mem e he'))
    simpa [lowerBound, List.find?, he] using this

/-- Claim C4: for a file absent from the compilation database the
recovery path borrows the command of the first known database file that
is not lexicographically less than the target, falling back to the first
entry of the list when every entry is less; in particular with known
files `/src/a.cc`, `/src/z.cc` and target `/src/m.cc` the donor is
`/src/z.cc`. -/
theorem claim_C4_recovery_donor (x d : String) (l1 l2 l : List String) :
    ((∀ e ∈ l1, strLtB e x = true) → strLtB d x = false →
      recoveryDonor (l1 ++ d :: l2) x = some d) ∧
    ((∀ e ∈ l, strLtB e x = true) → recoveryDonor l x = l.head?) ∧
    recoveryDonor ["/src/a.cc", "/src/z.cc"] "/src/m.cc" = some "/src/z.cc" := by
  refine ⟨?_, ?_, by decide⟩
  · intro hall hd
    unfold recoveryDonor
    rw [lowerBound_append_first x d l1 l2 hall hd]
  · intro hall
    unfold recoveryDonor
    rw [lowerBound_none x l hall]

/-- Witness for C4 at the spec's concrete scenario. -/
theorem claim_C4_witness :
    recoveryDonor (["/src/a.cc"] ++ "/src/z.cc" :: []) "/src/m.cc" = some "/src/z.cc" ∧
    recoveryDonor ["/src/a.cc", "/src/b.cc"] "/src/m.cc" =
      (["/src/a.cc", "/src/b.cc"] : List String).head? := by
  have h := claim_C4_recovery_donor "/src/m.cc" "/src/z.cc" ["/src/a.cc"] []
    ["/src/a.cc", "/src/b.cc"]
  exact ⟨h.1 (by decide) (by decide), h.2.1 (by decide)⟩

/-! ### Claim C5: token substitution in the recovery path -/

/-- Counterexample for C5 as stated: a token that merely contains the
donor path as a proper substring is left unchanged by the element-wise
`std::replace`, while the spec's textual substitution would rewrite it. -/
theorem claim_C5_counterexample :
    replaceCmd ["-I/src/z.cc.d", "/src/z.cc"] "/src/z.cc" "/src/m.cc" =
      ["-I/src/z.cc.d", "/src/m.cc"] ∧
    substAll "-I/src/z.cc.d" "/src/z.cc" "/src/m.cc" = "-I/src/m.cc.d" ∧
    ("-I/src/z.cc.d" : String) ≠ "-I/src/m.cc.d" := by
  refine ⟨by decide, by decide, by decide⟩

/-- Claim C5 as amended: the borrowed command is rewritten element-wise —
a token is replaced (wholesale, by the target path) exactly when it is
equal to the donor path, and any other token, including one that contains
the donor path embedded inside it, is kept unchanged. -/
theorem claim_C5_amended (command : List String) (old new_ : String) (i : Nat) :
    (replaceCmd command old new_)[i]? =
      (command[i]?).map (fun t => if t = old then new_ else t) ∧
    (replaceCmd command old new_).length = command.length := by
  constructor
  · simp [replaceCmd, List.getElem?_map]
  · simp [replaceCmd]

/-! ### Claims C7 and C8: command normalization in `proceedCommand` -/

theorem walkStep_hasNoStdInc_of_ne (fsExists : String → Bool) (Directory : String)
    (st : WalkState) (A : String) (h1 : A ≠ "-nostdinc") (h2 : A ≠ "-nostdinc++") :
    (walkStep fsExists Directory st A).hasNoStdInc = st.hasNoStdInc := by
  unfold walkStep
  split
  · rfl
  · split
    · rfl
    · split
      · rename_i hor
        rcases hor with h | h
        · exact absurd h h1
        · exact absurd h h2
      · split
        · rfl
        · split
          · rfl
          · split
            · rfl
            · split
              · rfl
              · split
                · rfl
                · rfl

theorem walkStep_hasNoStdInc_mono (fsExists : String → Bool) (Directory : String)
    (st : WalkState) (A : String) (h : st.hasNoStdInc = true) :
    (walkStep fsExists Directory st A).hasNoStdInc = true := by
  by_cases h1 : A = "-nostdinc"
  · subst h1
    unfold walkStep
    split
    · exact h
    · split
      · exact h
      · split
        · rfl
        · split
          · exact h
          · split
            · exact h
            · split
              · exact h
              · split
                · exact h
                · split
                  · exact h
                  · exact h
  · by_cases h2 : A = "-nostdinc++"
    · subst h2
      unfold walkStep
      split
      · exact h
      · split
        · exact h
        · split
          · rfl
          · split
            · exact h
            · split
              · exact h
              · split
                · exact h
                · split
                  · exact h
                  · split
                    · exact h
                    · exact h
    · rw [walkStep_hasNoStdInc_of_ne fsExists Directory st A h1 h2]
      exact h

theorem walkFold_no_flags (fsExists : String → Bool) (Directory : String)
    (cmd : List String) :
    ∀ st : WalkState, st.hasNoStdInc = false → "-nostdinc" ∉ cmd →
      "-nostdinc++" ∉ cmd →
      (cmd.foldl (walkStep fsExists Directory) st).hasNoStdInc = false := by
  induction cmd with
  | nil => intro st h _ _; exact h
  | cons A rest ih =>
    intro st h hn1 hn2
    have hA1 : A ≠ "-nostdinc" := fun hc => hn1 (hc ▸ List.mem_cons_self A rest)
    have hA2 : A ≠ "-nostdinc++" := fun hc => hn2 (hc ▸ List.mem_cons_self A rest)
    simp only [List.foldl_cons]
    refine ih _ ?_ (fun hc => hn1 (List.mem_cons_of_mem A hc))
      (fun hc => hn2 (List.mem_cons_of_mem A hc))
    rw [walkStep_hasNoStdInc_of_ne fsExists Directory st A hA1 hA2]
    exact h

theorem walkFold_flag_origin (fsExists : String → Bool) (Directory : String)
    (cmd : List String) :
    ∀ st : WalkState, (cmd.foldl (walkStep fsExists Directory) st).hasNoStdInc = true →
      st.hasNoStdInc = true ∨ "-nostdinc" ∈ cmd ∨ "-nostdinc++" ∈ cmd := by
  induction cmd with
  | nil => intro st h; exact Or.inl h
  | cons A rest ih =>
    intro st h
    simp only [List.foldl_cons] at h
    rcases ih _ h with hstep | hm | hm
    · by_cases h1 : A = "-nostdinc"
      · exact Or.inr (Or.inl (h1 ▸ List.mem_cons_self A rest))
      · by_cases h2 : A = "-nostdinc++"
        · exact Or.inr (Or.inr (h2 ▸ List.mem_cons_self A rest))
        · rw [walkStep_hasNoStdInc_of_ne fsExists Directory st A h1 h2] at hstep
          exact Or.inl hstep
    · exact Or.inr (Or.inl (List.mem_cons_of_mem A hm))
    · exact Or.inr (Or.inr (List.mem_cons_of_mem A hm))

/-- Counterexample for C7 as stated: in `["-I", "-nostdinc"]` the token
`-nostdinc` occurs among the input tokens, yet it is consumed as the path
argument of the preceding bare `-I` (and rewritten), so the builtin
include pair is still appended. -/
theorem claim_C7_counterexample :
    ("-nostdinc" ∈ (["-I", "-nostdinc"] : List String)) ∧
    proceedCommand id (fun _ => false) "/wd" ["-I", "-nostdinc"] =
      ["-I", "/wd/-nostdinc", "-isystem", "/builtins",
       "-Qunused-arguments", "-Wno-unknown-warning-option"] := by
  exact ⟨by decide, by decide⟩

/-- Claim C7 as amended: the built command appends `-isystem /builtins`
(before the two warning flags) exactly when the normalization walk did
not record a `-nostdinc`/`-nostdinc++` token; if neither token occurs in
the input the pair is always appended; the walk records the flag only
when one of the tokens occurs; and a flag token reached while
`previousIsDashI` is unset is recorded and preserved verbatim.  (A flag
token immediately following a bare `-I` is instead consumed as that
option's path argument and does not suppress the append.) -/
theorem claim_C7_amended (adjuster : List String → List String)
    (fsExists : String → Bool) (Directory : String) (command : List String) :
    (proceedCommand adjuster fsExists Directory command =
      adjuster (walkTokens fsExists Directory command).1 ++
        (if (walkTokens fsExists Directory command).2 = true then []
         else ["-isystem", "/builtins"]) ++
        ["-Qunused-arguments", "-Wno-unknown-warning-option"]) ∧
    ("-nostdinc" ∉ command → "-nostdinc++" ∉ command →
      (walkTokens fsExists Directory command).2 = false) ∧
    ((walkTokens fsExists Directory command).2 = true →
      "-nostdinc" ∈ command ∨ "-nostdinc++" ∈ command) ∧
    (∀ (st : WalkState) (A : String), st.previousIsDashI = false →
      (A = "-nostdinc" ∨ A = "-nostdinc++") →
      walkStep fsExists Directory st A =
        { st with hasNoStdInc := true, acc := st.acc ++ [A] }) := by
  refine ⟨rfl, ?_, ?_, ?_⟩
  · intro h1 h2
    exact walkFold_no_flags fsExists Directory command ⟨false, false, false, []⟩ rfl h1 h2
  · intro h
    rcases walkFold_flag_origin fsExists Directory command ⟨false, false, false, []⟩ h with
      hcon | hm | hm
    · cases hcon
    · exact Or.inl hm
    · exact Or.inr hm
  · intro st A hdash hA
    rcases hA with rfl | rfl
    · unfold walkStep
      rw [if_neg (by simp [hdash]), if_neg (by decide), if_pos (Or.inl rfl)]
    · unfold walkStep
      rw [if_neg (by simp [hdash]), if_neg (by decide), if_pos (Or.inr rfl)]

/-- Witness for C7 at concrete inputs: a command without the flags gets
the builtin pair appended, and a freestanding `-nostdinc` token is
recorded and preserved. -/
theorem claim_C7_witness :
    (walkTokens (fun _ => false) "/wd" ["-c", "x.cc"]).2 = false ∧
    walkStep (fun _ => false) "/wd" ⟨false, false, false, []⟩ "-nostdinc" =
      ⟨false, false, true, ["-nostdinc"]⟩ := by
  constructor
  · exact (claim_C7_amended id (fun _ => false) "/wd" ["-c", "x.cc"]).2.1
      (by decide) (by decide)
  · have h := (claim_C7_amended id (fun _ => false) "/wd" ["-c", "x.cc"]).2.2.2
      ⟨false, false, false, []⟩ "-nostdinc" rfl (Or.inl rfl)
    simpa using h

theorem startsWithB_dashI_head (A : String) (h : startsWithB "-I" A = true) :
    strHead A = some '-' := by
  unfold startsWithB at h
  unfold strHead
  have hdata : ("-I" : String).data = ['-', 'I'] := rfl
  rw [hdata] at h
  cases hA : A.data with
  | nil => rw [hA] at h; simp [List.isPrefixOf] at h
  | cons c cs =>
    rw [hA] at h
    simp only [List.isPrefixOf, Bool.and_eq_true, beq_iff_eq] at h
    rw [← h.1]
    rfl

/-- Counterexample for C8 as stated: the argument of a bare `-I` is
resolved against the working directory even when the resolved path does
not exist on disk (the filesystem oracle here answers `false` for every
path), so the token is not left unchanged. -/
theorem claim_C8_counterexample :
    (walkTokens (fun _ => false) "/wd" ["-I", "foo"]).1 = ["-I", "/wd/foo"] ∧
    (fun _ => (false : Bool)) ("/wd" ++ "/" ++ "foo") = false ∧
    ("/wd/foo" : String) ≠ "foo" := by
  exact ⟨by decide, rfl, by decide⟩

/-- Claim C8 as amended: during command normalization, the argument of a
bare `-I` and the path of a joined relative `-Ipath` token are resolved
against the working directory unconditionally, while a positional
non-flag path argument is resolved only if the resolved path exists on
disk and is left unchanged otherwise. -/
theorem claim_C8_amended (fsExists : String → Bool) (Directory : String)
    (st : WalkState) (A : String) :
    (st.previousIsDashI = true → A ≠ "" → strHead A ≠ some '/' →
      (walkStep fsExists Directory st A).acc =
        st.acc ++ [Directory ++ "/" ++ A]) ∧
    (st.previousIsDashI = false → st.previousNeedsMacro = false →
      A ≠ "-I" → A ≠ "-nostdinc" → A ≠ "-nostdinc++" → A ≠ "-U" → A ≠ "-D" →
      A ≠ "" → startsWithB "-I" A = true → strNth A 2 ≠ some '/' →
      (walkStep fsExists Directory st A).acc =
        st.acc ++ ["-I" ++ Directory ++ "/" ++ strDrop A 2]) ∧
    (st.previousIsDashI = false → st.previousNeedsMacro = false → A ≠ "" →
      strHead A ≠ some '-' → strHead A ≠ some '/' →
      (walkStep fsExists Directory st A).acc =
        st.acc ++ [if fsExists (Directory ++ "/" ++ A) = true
                   then Directory ++ "/" ++ A else A]) := by
  refine ⟨?_, ?_, ?_⟩
  · intro hdash hne hh
    unfold walkStep
    rw [if_pos ⟨hdash, hne, hh⟩]
  · intro hdash hmac hI hn1 hn2 hU hD hne hstart hnth
    unfold walkStep
    rw [if_neg (by simp [hdash]), if_neg hI, if_neg (fun hc => hc.elim hn1 hn2),
      if_neg (fun hc => hc.elim hU hD), if_neg (by simp [hmac]), if_neg hne,
      if_pos ⟨hstart, hnth⟩]
  · intro hdash hmac hne hhd hhs
    have hI : A ≠ "-I" := fun hc => hhd (by rw [hc]; rfl)
    have hn1 : A ≠ "-nostdinc" := fun hc => hhd (by rw [hc]; rfl)
    have hn2 : A ≠ "-nostdinc++" := fun hc => hhd (by rw [hc]; rfl)
    have hU : A ≠ "-U" := fun hc => hhd (by rw [hc]; rfl)
    have hD : A ≠ "-D" := fun hc => hhd (by rw [hc]; rfl)
    have hstart : ¬ startsWithB "-I" A = true :=
      fun hs => hhd (startsWithB_dashI_head A hs)
    unfold walkStep
    rw [if_neg (by simp [hdash]), if_neg hI, if_neg (fun hc => hc.elim hn1 hn2),
      if_neg (fun hc => hc.elim hU hD), if_neg (by simp [hmac]), if_neg hne,
      if_neg (fun hc => hstart hc.1), if_neg (fun hc => hc.elim hhd hhs)]

/-- Witness for C8 at concrete inputs: a nonexistent `-I` argument is
still resolved, a joined `-Iinc` is resolved, and a nonexistent
positional argument is left unchanged. -/
theorem claim_C8_witness :
    (walkStep (fun _ => false) "/wd" ⟨true, false, false, ["-I"]⟩ "foo").acc =
      ["-I"] ++ ["/wd" ++ "/" ++ "foo"] ∧
    (walkStep (fun _ => false) "/wd" ⟨false, false, false, []⟩ "-Iinc").acc =
      [] ++ ["-I" ++ "/wd" ++ "/" ++ strDrop "-Iinc" 2] ∧
    (walkStep (fun _ => false) "/wd" ⟨false, false, false, []⟩ "x.cc").acc =
      [] ++ [if (fun _ => (false : Bool)) ("/wd" ++ "/" ++ "x.cc") = true
             then "/wd" ++ "/" ++ "x.cc" else "x.cc"] := by
  have h := claim_C8_amended (fun _ => false) "/wd" ⟨true, false, false, ["-I"]⟩ "foo"
  have h2 := claim_C8_amended (fun _ => false) "/wd" ⟨false, false, false, []⟩ "-Iinc"
  have h3 := claim_C8_amended (fun _ => false) "/wd" ⟨false, false, false, []⟩ "x.cc"
  exact ⟨h.1 rfl (by decide) (by decide),
    h2.2.1 rfl rfl (by decide) (by decide) (by decide) (by decide) (by decide)
      (by decide) (by decide) (by decide),
    h3.2.2 rfl rfl (by decide) (by decide) (by decide)⟩

/-! ### Claim C6: the fallback unannotated page -/

/-- `true` exactly on the two events the spec's fallback path is supposed
to produce: the unannotated page and the `otherIndex` entry. -/
def isFallbackEvent : Event → Bool
  | Event.emitPage _ _ _ => true
  | Event.appendOtherIndex _ => true
  | _ => false

theorem shouldProcess_true_elim (op : String) (st : List String) (f : String)
    (project : ProjectInfo) (st1 : List String)
    (h : shouldProcess op st f (some project) = (true, st1)) :
    project.type ≠ ProjectType.External ∧
    outputFileName op f project ∉ st ∧
    st1 = outputFileName op f project :: st := by
  simp only [shouldProcess] at h
  by_cases hext : project.type = ProjectType.External
  · simp [hext] at h
  · rw [if_neg hext] at h
    by_cases hmem : outputFileName op f project ∈ st
    · simp [hmem] at h
    · rw [if_neg hmem] at h
      cases h
      exact ⟨hext, hmem, rfl⟩

theorem shouldProcess_false_of_mem (op : String) (st : List String) (f : String)
    (project : ProjectInfo) (hext : project.type ≠ ProjectType.External)
    (hmem : outputFileName op f project ∈ st) :
    shouldProcess op st f (some project) = (false, st) := by
  simp only [shouldProcess]
  rw [if_neg hext, if_pos hmem]

theorem delayedScheduled_no_fallback (gcc : String → List CompileCommand)
    (allFiles : List String) (isFull : Bool) (it file : String) :
    ∀ e ∈ delayedScheduled gcc allFiles isFull it file, isFallbackEvent e = false := by
  intro e he
  simp only [delayedScheduled] at he
  split at he
  · simp only [List.mem_singleton] at he
    subst he
    rfl
  · simp only [List.mem_singleton] at he
    subst he
    rfl

theorem delayedFallback_claimed (op ds : String) (projects : List ProjectInfo)
    (cr : String → Bool) (co : Bool) (file : String) (st1 : List String)
    (scheduled : List Event) (projectinfo : ProjectInfo)
    (hpf : projectForFile projects file = some projectinfo)
    (hext : projectinfo.type ≠ ProjectType.External)
    (hmem : outputFileName op file projectinfo ∈ st1) :
    delayedFallback op ds projects cr co file st1 scheduled = (st1, scheduled) := by
  unfold delayedFallback
  split
  · rename_i heq
    rw [hpf] at heq
  · rename_i projectinfo2 heq
    rw [hpf] at heq
    cases heq
    split
    · rename_i st2 heq2
      rw [shouldProcess_false_of_mem op st1 file projectinfo hext hmem] at heq2
      cases heq2
      rfl
    · rename_i st2 heq2
      rw [shouldProcess_false_of_mem op st1 file projectinfo hext hmem] at heq2
      simp at heq2

/-- The fallback block of the delayed-file loop can never fire: when it
is reached, the earlier `shouldProcess` call of the same loop iteration
has already inserted this file's output path into `exists_files_`, so the
renewed `shouldProcess` check inside the fallback always answers `false`.
Consequently no `emitPage` and no `appendOtherIndex` event is ever
produced, for any inputs. -/
theorem processDelayedFile_fallback_dead (op ds : String) (projects : List ProjectInfo)
    (gcc : String → List CompileCommand) (allFiles : List String) (isFull : Bool)
    (absPath : String → String) (cr : String → Bool) (co : Bool)
    (st : List String) (it : String) :
    ∀ e ∈ (processDelayedFile op ds projects gcc allFiles isFull absPath cr co st it).2,
      isFallbackEvent e = false := by
  intro e he
  simp only [processDelayedFile] at he
  split at he
  · simp at he
  · rename_i project heq
    split at he
    · simp at he
    · rename_i st1 heq2
      obtain ⟨hext, hnm, hst1⟩ :=
        shouldProcess_true_elim op st (absPath it) project st1 heq2
      have hmem : outputFileName op (absPath it) project ∈ st1 := by
        rw [hst1]
        exact List.mem_cons_self _ _
      split at he
      · rw [delayedFallback_claimed op ds projects cr co (absPath it) st1 _
          project heq hext hmem] at he
        exact delayedScheduled_no_fallback gcc allFiles isFull it (absPath it) e he
      · exact delayedScheduled_no_fallback gcc allFiles isFull it (absPath it) e
          (by simpa using he)

/-- Claim C6 evaluated at a failing input (code_bug): a file owned by a
registered project, absent from the compilation database, for which
recovery finds no compile command at all, in a run that is not in
whole-directory mode.  The loop body emits only the "could not find
commands" notice: no unannotated page is written and nothing is appended
to `otherIndex`, because the fallback block's renewed `shouldProcess`
check finds the output path already claimed by the check at the top of
the same iteration. -/
theorem claim_C6_fallback_page_never_emitted :
    processDelayedFile "/out" "2026-Oct-11"
        [⟨"app", "/src/", "", "", ProjectType.Normal⟩]
        (fun _ => []) ["/x/a.cc"] false id (fun _ => true) true [] "/src/m.txt" =
      (["/out/app/m.txt.html"], [Event.couldNotFindCommands "/src/m.txt"]) := by
  decide

/-! ### Claim C9: project registration -/

theorem strLast_append_slash (s : String) : strLast (s ++ "/") = some '/' := by
  cases s with
  | mk data =>
    show (data ++ ['/']).getLast? = some '/'
    exact List.getLast?_concat data

theorem ne_empty_of_strLast (s : String) (h : strLast s = some '/') : s ≠ "" := by
  intro hc
  rw [hc] at h
  simp [strLast] at h

/-- Claim C9: `addProject` returns `false` exactly when the project's
`source_path` is empty before or after canonicalization; every
successful registration appends to the registry a project whose stored
`source_path` is non-empty and ends with a slash (name, revision and
type are kept).  `canonicalize` is the external canonicalization helper;
the statement holds for every choice of it. -/
theorem claim_C9_addProject (canonicalize : String → String)
    (projects : List ProjectInfo) (info : ProjectInfo) :
    ((addProject canonicalize projects info).1 = false ↔
      info.source_path = "" ∨ canonicalize info.source_path = "") ∧
    ((addProject canonicalize projects info).1 = true →
      ∃ stored : ProjectInfo,
        (addProject canonicalize projects info).2 = projects ++ [stored] ∧
        stored.source_path ≠ "" ∧ strLast stored.source_path = some '/' ∧
        stored.name = info.name ∧ stored.revision = info.revision ∧
        stored.type = info.type) := by
  by_cases h1 : info.source_path = ""
  · constructor
    · simp [addProject, h1]
    · intro h
      simp [addProject, h1] at h
  · by_cases h2 : canonicalize info.source_path = ""
    · constructor
      · simp [addProject, h1, h2]
      · intro h
        simp [addProject, h1, h2] at h
    · constructor
      · by_cases h3 : strLast (canonicalize info.source_path) = some '/'
        · simp [addProject, h1, h2, h3]
        · simp [addProject, h1, h2, h3]
      · intro _
        by_cases h3 : strLast (canonicalize info.source_path) = some '/'
        · refine ⟨{ info with source_path := canonicalize info.source_path },
            ?_, h2, h3, rfl, rfl, rfl⟩
          simp [addProject, h1, h2, h3]
        · refine ⟨{ info with source_path := canonicalize info.source_path ++ "/" },
            ?_, ?_, ?_, rfl, rfl, rfl⟩
          · simp [addProject, h1, h2, h3]
          · exact ne_empty_of_strLast _ (strLast_append_slash _)
          · exact strLast_append_slash _

/-- Witness for C9 at a concrete input: registering `p:/src` through the
identity canonicalizer succeeds and stores the slash-terminated path. -/
theorem claim_C9_witness :
    (addProject (fun s => s) [] ⟨"p", "/src", "", "", ProjectType.Normal⟩).1 = true ∧
    ∃ stored : ProjectInfo,
      (addProject (fun s => s) [] ⟨"p", "/src", "", "", ProjectType.Normal⟩).2 =
        [] ++ [stored] ∧ stored.source_path ≠ "" ∧
        strLast stored.source_path = some '/' ∧ stored.name = "p" ∧
        stored.revision = "" ∧ stored.type = ProjectType.Normal := by
  refine ⟨by decide, ?_⟩
  have h := (claim_C9_addProject (fun s => s) []
    ⟨"p", "/src", "", "", ProjectType.Normal⟩).2 (by decide)
  simpa using h

end CodeBrowser
